import Mathlib

/-!
Shallow embedding of the rendering core of `src/client/js/canvas.js`:
the `CanvasManager` surface (resize, performance detection), the
`RocketCurve` trajectory buffer (`addPoint`), the `ExplosionParticles`
burst simulator (construction and `update`), and the pulsing head
marker of `drawCurrentPoint`.  JavaScript numbers are modelled as `ℚ`
(all operations used by the code are field operations and `min`),
except the transcendental `Math.sin` of the pulse, modelled over `ℝ`.
Missing device signals (`navigator.hardwareConcurrency`,
`navigator.deviceMemory` possibly `undefined`) are modelled as
`Option ℚ`, with the JavaScript semantics that a comparison against
`undefined` is `false`.
-/

/-- One entry of `RocketCurve.points`: `{ x, y, multiplier, time }`. -/
structure CurvePoint where
  x : ℚ
  y : ℚ
  multiplier : ℚ
  time : ℚ
deriving DecidableEq, Repr

/-- The coordinate mapping of `RocketCurve.addPoint`:
`x = Math.min((time / 30) * width, width)` and
`y = height - Math.min(((multiplier - 1) / 10) * height, height)`. -/
def mkPoint (width height t m : ℚ) : CurvePoint :=
  { x := min (t / 30 * width) width
    y := height - min ((m - 1) / 10 * height) height
    multiplier := m
    time := t }

/-- `RocketCurve.addPoint`: push the mapped point, then
`if (this.points.length > 300) this.points.shift()`. -/
def addPoint (width height : ℚ) (pts : List CurvePoint) (t m : ℚ) :
    List CurvePoint :=
  let pts2 := pts ++ [mkPoint width height t m]
  if 300 < pts2.length then pts2.tail else pts2

/-- Feed a whole sample stream through `addPoint`, starting from the
empty buffer of a fresh `RocketCurve`. -/
def runPoints (width height : ℚ) (samples : List (ℚ × ℚ)) : List CurvePoint :=
  samples.foldl (fun pts s => addPoint width height pts s.1 s.2) []

/-- The suffix of the last `n` elements of a list. -/
def lastN {α : Type} (n : ℕ) (l : List α) : List α :=
  l.drop (l.length - n)

/-- The record returned by `CanvasManager.detectPerformance`. -/
structure PerformanceProfile where
  particleCount : ℕ
  frameRate : ℕ
  enableShadows : Bool
  enableBlur : Bool
deriving DecidableEq, Repr

/-- JavaScript `a < b` where `a` may be `undefined` (`none`):
`undefined < b` evaluates to `false`. -/
def jsLt (a : Option ℚ) (b : ℚ) : Bool :=
  match a with
  | none => false
  | some x => decide (x < b)

/-- `CanvasManager.detectPerformance`:
`isLowEnd = navigator.hardwareConcurrency < 4 || navigator.deviceMemory < 2
|| window.innerWidth < 768`, then the profile literal. -/
def detectPerformance (hardwareConcurrency deviceMemory : Option ℚ)
    (innerWidth : ℚ) : PerformanceProfile :=
  let isLowEnd := jsLt hardwareConcurrency 4 || jsLt deviceMemory 2 ||
    decide (innerWidth < 768)
  { particleCount := if isLowEnd then 10 else 20
    frameRate := if isLowEnd then 30 else 60
    enableShadows := !isLowEnd
    enableBlur := !isLowEnd }

/-- The low-end profile value `{10, 30, shadows off, blur off}`. -/
def lowProfile : PerformanceProfile :=
  { particleCount := 10, frameRate := 30
    enableShadows := false, enableBlur := false }

/-- The high-end profile value `{20, 60, shadows on, blur on}`. -/
def highProfile : PerformanceProfile :=
  { particleCount := 20, frameRate := 60
    enableShadows := true, enableBlur := true }

/-- The host element layout box read by `getBoundingClientRect()`. -/
structure Rect where
  width : ℚ
  height : ℚ
deriving DecidableEq, Repr

/-- The fields of `CanvasManager` touched by `resize`: logical CSS
dimensions, physical backing-store dimensions, device pixel ratio. -/
structure SurfaceState where
  width : ℚ
  height : ℚ
  canvasWidth : ℚ
  canvasHeight : ℚ
  dpr : ℚ
deriving DecidableEq, Repr

/-- `CanvasManager.resize`: logical size from the layout box, physical
size scaled by the device pixel ratio. -/
def resize (r : Rect) (s : SurfaceState) : SurfaceState :=
  { s with
    width := r.width
    height := r.height
    canvasWidth := r.width * s.dpr
    canvasHeight := r.height * s.dpr }

/-- One entry of `ExplosionParticles.particles`. -/
structure Particle where
  x : ℚ
  y : ℚ
  vx : ℚ
  vy : ℚ
  life : ℚ
  decay : ℚ
  size : ℚ
  color : String
deriving DecidableEq, Repr

/-- The palette of `ExplosionParticles.getRandomColor`. -/
def burstColors : List String :=
  ["#ff6b6b", "#ffa500", "#ffff00", "#ff4757", "#ff3742"]

/-- `getRandomColor` applied to one `Math.random()` draw `r`:
`colors[Math.floor(r * 5)]`. -/
def getRandomColor (r : ℚ) : String :=
  burstColors.getD (Int.toNat ⌊r * 5⌋) "#ff6b6b"

/-- One particle literal of `ExplosionParticles.createParticles`, with
its five `Math.random()` draws made explicit (vx, vy, decay, size,
color index, in source order). -/
def mkParticle (x y r1 r2 r3 r4 r5 : ℚ) : Particle :=
  { x := x
    y := y
    vx := (r1 - 0.5) * 15
    vy := (r2 - 0.5) * 15
    life := 1
    decay := 0.015 + r3 * 0.01
    size := 2 + r4 * 4
    color := getRandomColor r5 }

/-- The fields of `ExplosionParticles`: the particle batch and the
active flag. -/
structure BurstState where
  particles : List Particle
  isActive : Bool
deriving DecidableEq, Repr

/-- `ExplosionParticles` construction: `createParticles` spawns
`performanceSettings.particleCount` particles at the origin and sets
`isActive = true`.  `rng` is the stream of `Math.random()` results,
five draws per particle. -/
def burstInit (prof : PerformanceProfile) (x y : ℚ) (rng : ℕ → ℚ) :
    BurstState :=
  { particles := (List.range prof.particleCount).map fun i =>
      mkParticle x y (rng (5 * i)) (rng (5 * i + 1)) (rng (5 * i + 2))
        (rng (5 * i + 3)) (rng (5 * i + 4))
    isActive := true }

/-- The per-particle kinematics of `ExplosionParticles.update`:
position advanced by the old velocity, then gravity on `vy`, air
resistance on `vx`, and life decremented by the particle's decay. -/
def stepParticle (p : Particle) : Particle :=
  { p with
    x := p.x + p.vx
    y := p.y + p.vy
    vy := p.vy + 0.2
    vx := p.vx * 0.98
    life := p.life - p.decay }

/-- `ExplosionParticles.update`: no-op when inactive; otherwise step
every particle, keep those with `life > 0`, and clear the active flag
exactly when the batch became empty. -/
def update (s : BurstState) : BurstState :=
  if s.isActive = false then s
  else
    let alive := (s.particles.map stepParticle).filter fun p =>
      decide (0 < p.life)
    { particles := alive
      isActive := if alive.isEmpty then false else s.isActive }

/-- Total remaining life of a particle list. -/
def lifeSum (l : List Particle) : ℚ :=
  (l.map fun p => p.life).sum

/-- The pulse factor of `RocketCurve.drawCurrentPoint` as a function
of wall-clock milliseconds: `Math.sin(Date.now() / 500) * 0.3 + 0.7`,
applied to the base radii 6 and 4. -/
noncomputable def pulseFactor (nowMs : ℝ) : ℝ :=
  Real.sin (nowMs / 500) * 0.3 + 0.7

/-- A concrete one-particle active batch used to instantiate the
burst-progress theorem. -/
def sampleBurst : BurstState :=
  { particles := [Particle.mk 0 0 0 0 1 1 2 "#ff6b6b"]
    isActive := true }

/-- C9: `resize` is idempotent when the layout box has not changed, and
after each call the physical backing-store dimensions equal the logical
dimensions times the device pixel ratio. -/
theorem resize_idempotent (r : Rect) (s : SurfaceState) :
    resize r (resize r s) = resize r s ∧
    (resize r s).width = r.width ∧ (resize r s).height = r.height ∧
    (resize r s).canvasWidth = (resize r s).width * (resize r s).dpr ∧
    (resize r s).canvasHeight = (resize r s).height * (resize r s).dpr :=
  ⟨rfl, rfl, rfl, rfl, rfl⟩

/-- C3: `detectPerformance` is a pure function of the three device
signals; when all signals are present it returns the low-end profile
exactly when cores < 4 or memory < 2 or width < 768, and the high-end
profile otherwise. -/
theorem detectPerformance_thresholds (c m w : ℚ) :
    detectPerformance (some c) (some m) w =
      if c < 4 ∨ m < 2 ∨ w < 768 then lowProfile else highProfile := by
  by_cases h1 : c < 4 <;> by_cases h2 : m < 2 <;> by_cases h3 : w < 768 <;>
    simp [detectPerformance, jsLt, lowProfile, highProfile, h1, h2, h3]

/-- C7 counterexample: with both hardware concurrency and device memory
missing and a wide viewport, `detectPerformance` returns the high-end
profile, not the low-end fallback the claim demands. -/
theorem detectPerformance_missing_not_low :
    detectPerformance none none 1024 = highProfile ∧
    detectPerformance none none 1024 ≠ lowProfile := by
  constructor <;> decide

/-- C7 amended: a missing device signal makes its threshold comparison
false (JavaScript `undefined < n`), so a missing signal never forces
the low-end profile by itself; the profile is decided by the remaining
signals alone, here the viewport width. -/
theorem detectPerformance_missing_signals (w : ℚ) :
    detectPerformance none none w =
      if w < 768 then lowProfile else highProfile := by
  by_cases h : w < 768 <;>
    simp [detectPerformance, jsLt, lowProfile, highProfile, h]

/-- C2: the `addPoint` mapping sends (0, 1) to (0, height) and
(30, 11) to (width, 0), and clamps every time above 30 and multiplier
above 11 to that same corner (width, 0). -/
theorem addPoint_clamped_mapping (w h t m : ℚ) (hw : 0 ≤ w) (hh : 0 ≤ h)
    (ht : 30 < t) (hm : 11 < m) :
    mkPoint w h 0 1 = ⟨0, h, 1, 0⟩ ∧
    mkPoint w h 30 11 = ⟨w, 0, 11, 30⟩ ∧
    (mkPoint w h t m).x = w ∧ (mkPoint w h t m).y = 0 := by
  refine ⟨?_, ?_, ?_, ?_⟩
  · unfold mkPoint
    norm_num [CurvePoint.mk.injEq, min_eq_left hw, min_eq_left hh]
  · unfold mkPoint
    norm_num [CurvePoint.mk.injEq, min_self]
  · unfold mkPoint
    have hx : w ≤ t / 30 * w := by
      nlinarith [mul_nonneg (by linarith : (0:ℚ) ≤ t / 30 - 1) hw]
    simp [min_eq_right hx]
  · unfold mkPoint
    have hy : h ≤ (m - 1) / 10 * h := by
      nlinarith [mul_nonneg (by linarith : (0:ℚ) ≤ (m - 1) / 10 - 1) hh]
    simp [min_eq_right hy]

/-- C2 witness: the mapping theorem instantiated at a 200 × 100 surface
with the out-of-range sample (45, 12). -/
theorem addPoint_clamped_mapping_witness :
    mkPoint 200 100 0 1 = ⟨0, 100, 1, 0⟩ ∧
    (mkPoint 200 100 45 12).x = 200 ∧ (mkPoint 200 100 45 12).y = 0 := by
  have h := addPoint_clamped_mapping 200 100 45 12 (by norm_num)
    (by norm_num) (by norm_num) (by norm_num)
  exact ⟨h.1, h.2.2.1, h.2.2.2⟩

/-- C6 counterexample: the invalid sample (time −30, multiplier 1/2) on
a 100 × 100 surface is stored at (−100, 105), outside the valid display
range [0, 100] × [0, 100]: the lower ends are not clamped. -/
theorem addPoint_invalid_out_of_range :
    (mkPoint 100 100 (-30) (1/2)).x = -100 ∧
    (mkPoint 100 100 (-30) (1/2)).y = 105 ∧
    ¬(0 ≤ (mkPoint 100 100 (-30) (1/2)).x ∧
      (mkPoint 100 100 (-30) (1/2)).y ≤ 100) := by
  have hx : (mkPoint 100 100 (-30) (1/2)).x = -100 := by
    norm_num [mkPoint, min_def]
  have hy : (mkPoint 100 100 (-30) (1/2)).y = 105 := by
    norm_num [mkPoint, min_def]
  refine ⟨hx, hy, ?_⟩
  rintro ⟨h1, h2⟩
  rw [hx] at h1
  norm_num at h1

/-- C6 amended: `addPoint` clamps only at the upper ends — the stored
x never exceeds the width and the stored y never goes above the top
edge (y ≥ 0) — while an invalid sample (negative time, or multiplier
below 1) produces a coordinate outside the display range: x < 0, or
y beyond the height. -/
theorem addPoint_upper_clamp_only (w h t m : ℚ) (hw : 0 ≤ w) (hh : 0 ≤ h) :
    (mkPoint w h t m).x ≤ w ∧ 0 ≤ (mkPoint w h t m).y ∧
    (t < 0 → 0 < w → (mkPoint w h t m).x < 0) ∧
    (m < 1 → 0 < h → h < (mkPoint w h t m).y) := by
  refine ⟨min_le_right _ _, ?_, ?_, ?_⟩
  · unfold mkPoint
    have := min_le_right ((m - 1) / 10 * h) h
    simp only
    linarith
  · intro ht hw0
    unfold mkPoint
    have hneg : t / 30 * w < 0 :=
      mul_neg_of_neg_of_pos (by linarith) hw0
    have := min_le_left (t / 30 * w) w
    simp only
    linarith
  · intro hm hh0
    unfold mkPoint
    have hneg : (m - 1) / 10 * h < 0 :=
      mul_neg_of_neg_of_pos (by linarith) hh0
    have := min_le_left ((m - 1) / 10 * h) h
    simp only
    linarith

/-- C6 amended witness: instantiated at the invalid sample (−30, 1/2)
on a 100 × 100 surface. -/
theorem addPoint_upper_clamp_only_witness :
    (mkPoint 100 100 (-30) (1/2)).x < 0 ∧
    100 < (mkPoint 100 100 (-30) (1/2)).y := by
  have h := addPoint_upper_clamp_only 100 100 (-30) (1/2)
    (by norm_num) (by norm_num)
  exact ⟨h.2.2.1 (by norm_num) (by norm_num),
    h.2.2.2 (by norm_num) (by norm_num)⟩

/-- C8 counterexample: at wall-clock time 750π milliseconds the pulse
factor is sin(3π/2)·0.3 + 0.7 = 0.4, strictly below the claimed lower
bound of 0.7. -/
theorem pulseFactor_below_seventy_percent :
    pulseFactor (750 * Real.pi) < 7 / 10 := by
  have h : (750 * Real.pi) / 500 = Real.pi / 2 + Real.pi := by ring
  rw [pulseFactor, h, Real.sin_add_pi, Real.sin_pi_div_two]
  norm_num

/-- C8 amended: the head-marker pulse factor is sinusoidal in
wall-clock time with period 1000π ms (≈ 2π·0.5 s) and stays within
[0.4, 1.0] — so the radius varies between 40% and 100% of its base
size, not 70% and 100%. -/
theorem pulseFactor_bounds (t : ℝ) :
    2 / 5 ≤ pulseFactor t ∧ pulseFactor t ≤ 1 ∧
    pulseFactor (t + 1000 * Real.pi) = pulseFactor t := by
  refine ⟨?_, ?_, ?_⟩
  · have := Real.neg_one_le_sin (t / 500)
    unfold pulseFactor
    linarith
  · have := Real.sin_le_one (t / 500)
    unfold pulseFactor
    linarith
  · unfold pulseFactor
    have h : (t + 1000 * Real.pi) / 500 = t / 500 + 2 * Real.pi := by ring
    rw [h, Real.sin_add_two_pi]

/-- Dropping the head preserves `lastN n` when at least `n` elements
remain. -/
theorem lastN_cons {α : Type} (n : ℕ) (x : α) (l : List α)
    (h : n ≤ l.length) : lastN n (x :: l) = lastN n l := by
  unfold lastN
  have hl : (x :: l).length - n = (l.length - n) + 1 := by
    simp only [List.length_cons]
    omega
  rw [hl, List.drop_succ_cons]

/-- Below capacity, `addPoint` is a plain append. -/
theorem addPoint_eq_append (w h t m : ℚ) (pts : List CurvePoint)
    (hlt : pts.length < 300) :
    addPoint w h pts t m = pts ++ [mkPoint w h t m] := by
  have hc : ¬ 300 < (pts ++ [mkPoint w h t m]).length := by
    simp only [List.length_append, List.length_cons, List.length_nil]
    omega
  simp only [addPoint, if_neg hc]

/-- At capacity, `addPoint` appends and then evicts the oldest point. -/
theorem addPoint_eq_tail (w h t m : ℚ) (pts : List CurvePoint)
    (hge : 300 ≤ pts.length) :
    addPoint w h pts t m = (pts ++ [mkPoint w h t m]).tail := by
  have hc : 300 < (pts ++ [mkPoint w h t m]).length := by
    simp only [List.length_append, List.length_cons, List.length_nil]
    omega
  simp only [addPoint, if_pos hc]

/-- Sliding-window shape of the fold: from any buffer within capacity,
feeding a sample stream leaves exactly the last 300 of the inserted
points. -/
theorem foldl_addPoint_eq (w h : ℚ) (samples : List (ℚ × ℚ)) :
    ∀ acc : List CurvePoint, acc.length ≤ 300 →
      List.foldl (fun pts s => addPoint w h pts s.1 s.2) acc samples =
        lastN 300 (acc ++ samples.map fun s => mkPoint w h s.1 s.2) := by
  induction samples with
  | nil =>
      intro acc hacc
      simp [lastN, Nat.sub_eq_zero_of_le hacc]
  | cons s rest ih =>
      intro acc hacc
      rw [List.foldl_cons]
      by_cases hlen : acc.length < 300
      · rw [addPoint_eq_append w h s.1 s.2 acc hlen,
          ih _ (by simp; omega)]
        simp only [List.map_cons, List.cons_append, List.nil_append,
          List.append_assoc, List.singleton_append]
      · have h300 : acc.length = 300 := by omega
        obtain ⟨a, acc2, rfl⟩ : ∃ a t2, acc = a :: t2 := by
          cases acc with
          | nil => simp at h300
          | cons a t2 => exact ⟨a, t2, rfl⟩
        have h299 : acc2.length = 299 := by
          simp only [List.length_cons] at h300
          omega
        rw [addPoint_eq_tail w h s.1 s.2 _ (by omega)]
        simp only [List.cons_append, List.tail_cons]
        rw [ih (acc2 ++ [mkPoint w h s.1 s.2]) (by simp; omega)]
        simp only [List.map_cons, List.cons_append, List.nil_append,
          List.append_assoc, List.singleton_append]
        rw [lastN_cons]
        simp only [List.length_append, List.length_cons]
        omega

/-- C1: for every sequence of `addPoint` calls the buffer never exceeds
300 points, and its content is exactly the last min(n, 300) inserted
points in insertion order (FIFO eviction of the oldest). -/
theorem addPoint_buffer_window (w h : ℚ) (samples : List (ℚ × ℚ)) :
    (runPoints w h samples).length = min samples.length 300 ∧
    runPoints w h samples =
      lastN 300 (samples.map fun s => mkPoint w h s.1 s.2) := by
  have heq : runPoints w h samples =
      lastN 300 (samples.map fun s => mkPoint w h s.1 s.2) := by
    unfold runPoints
    rw [foldl_addPoint_eq w h samples [] (by simp)]
    rw [List.nil_append]
  refine ⟨?_, heq⟩
  rw [heq]
  unfold lastN
  simp only [List.length_drop, List.length_map]
  omega

/-- `getRandomColor` always lands in the palette. -/
theorem getRandomColor_mem (r : ℚ) : getRandomColor r ∈ burstColors := by
  unfold getRandomColor
  rcases Nat.lt_or_ge (Int.toNat ⌊r * 5⌋) burstColors.length with h | h
  · rw [List.getD_eq_getElem _ _ h]
    exact List.getElem_mem h
  · rw [List.getD_eq_default _ _ h]
    simp [burstColors]

/-- `update` is a no-op on an inactive batch. -/
theorem update_of_inactive (s : BurstState) (h : s.isActive = false) :
    update s = s := by
  simp [update, h]

/-- `update` on an active batch: step, filter the dead, deactivate
exactly on emptiness. -/
theorem update_of_active (s : BurstState) (h : s.isActive = true) :
    update s =
      { particles := (s.particles.map stepParticle).filter fun p =>
          decide (0 < p.life)
        isActive := if ((s.particles.map stepParticle).filter fun p =>
          decide (0 < p.life)).isEmpty then false else true } := by
  simp [update, h]

/-- Boolean case split helper for the active flag. -/
theorem active_of_not_inactive (s : BurstState) (h : ¬ s.isActive = false) :
    s.isActive = true := by
  cases hb : s.isActive
  · exact absurd hb h
  · rfl

/-- `update` preserves the invariant that an inactive batch is empty. -/
theorem update_inactive_empty (s : BurstState)
    (hP : s.isActive = false → s.particles = []) :
    (update s).isActive = false → (update s).particles = [] := by
  by_cases hA : s.isActive = false
  · rw [update_of_inactive s hA]
    exact hP
  · rw [update_of_active s (active_of_not_inactive s hA)]
    intro hf
    simp only at hf ⊢
    by_cases he : ((s.particles.map stepParticle).filter fun p =>
        decide (0 < p.life)).isEmpty
    · exact List.isEmpty_iff.mp he
    · rw [if_neg he] at hf
      exact absurd hf (by simp)

/-- The inactive-batches-are-empty invariant holds along every iterate
of `update`. -/
theorem iter_inactive_empty (s : BurstState)
    (hP : s.isActive = false → s.particles = []) (k : ℕ) :
    (update^[k] s).isActive = false → (update^[k] s).particles = [] := by
  induction k with
  | zero => simpa using hP
  | succ n ihn =>
      rw [Function.iterate_succ_apply']
      exact update_inactive_empty _ ihn

/-- Every particle surviving `k` updates descends from an initial
particle, with the same decay rate and life decreased by exactly
`k` times that decay. -/
theorem update_iter_origin (s : BurstState)
    (hP : s.isActive = false → s.particles = []) (k : ℕ) :
    ∀ p2 ∈ (update^[k] s).particles, ∃ p ∈ s.particles,
      p2.decay = p.decay ∧ p2.life = p.life - (k : ℚ) * p.decay := by
  induction k with
  | zero =>
      intro p2 hp2
      rw [Function.iterate_zero_apply] at hp2
      exact ⟨p2, hp2, rfl, by simp⟩
  | succ n ihn =>
      intro p2 hp2
      rw [Function.iterate_succ_apply'] at hp2
      by_cases hA : (update^[n] s).isActive = false
      · rw [update_of_inactive _ hA, iter_inactive_empty s hP n hA] at hp2
        simp at hp2
      · rw [update_of_active _ (active_of_not_inactive _ hA)] at hp2
        simp only [List.mem_filter, List.mem_map] at hp2
        obtain ⟨⟨q, hq, rfl⟩, _⟩ := hp2
        obtain ⟨p, hp, hdec, hlf⟩ := ihn q hq
        refine ⟨p, hp, hdec, ?_⟩
        have hstep : (stepParticle q).life = q.life - q.decay := rfl
        rw [hstep, hlf, hdec]
        push_cast
        ring

/-- One `update` keeps all stored lives strictly positive. -/
theorem update_lives_pos (s : BurstState)
    (h : ∀ p ∈ s.particles, 0 < p.life) :
    ∀ p ∈ (update s).particles, 0 < p.life := by
  by_cases hA : s.isActive = false
  · rw [update_of_inactive s hA]
    exact h
  · rw [update_of_active s (active_of_not_inactive s hA)]
    intro p hp
    simp only [List.mem_filter] at hp
    exact of_decide_eq_true hp.2

/-- Strict positivity of lives is preserved by every iterate of
`update`. -/
theorem iter_lives_pos (s : BurstState)
    (h : ∀ p ∈ s.particles, 0 < p.life) (k : ℕ) :
    ∀ p ∈ (update^[k] s).particles, 0 < p.life := by
  induction k with
  | zero => simpa using h
  | succ n ihn =>
      rw [Function.iterate_succ_apply']
      exact update_lives_pos _ ihn

/-- `lifeSum` over a cons. -/
theorem lifeSum_cons (a : Particle) (l : List Particle) :
    lifeSum (a :: l) = a.life + lifeSum l := by
  simp [lifeSum]

/-- Stepping then discarding the dead never increases total life, for
particles with positive life and decay. -/
theorem lifeSum_filter_step_le (l : List Particle)
    (h : ∀ p ∈ l, 0 < p.life ∧ 0 < p.decay) :
    lifeSum ((l.map stepParticle).filter fun p => decide (0 < p.life)) ≤
      lifeSum l := by
  induction l with
  | nil => simp [lifeSum]
  | cons a t iht =>
      obtain ⟨hal, had⟩ := h a (List.mem_cons_self a t)
      have iht' := iht fun p hp => h p (List.mem_cons_of_mem a hp)
      simp only [List.map_cons, List.filter_cons, lifeSum_cons]
      by_cases hs : 0 < (stepParticle a).life
      · rw [if_pos (by simpa using hs), lifeSum_cons]
        have hstep : (stepParticle a).life = a.life - a.decay := rfl
        rw [hstep]
        linarith
      · rw [if_neg (by simpa using hs)]
        linarith

/-- On a non-empty batch, stepping then discarding the dead strictly
decreases total life. -/
theorem lifeSum_filter_step_lt (l : List Particle) (hne : l ≠ [])
    (h : ∀ p ∈ l, 0 < p.life ∧ 0 < p.decay) :
    lifeSum ((l.map stepParticle).filter fun p => decide (0 < p.life)) <
      lifeSum l := by
  cases l with
  | nil => exact absurd rfl hne
  | cons a t =>
      obtain ⟨hal, had⟩ := h a (List.mem_cons_self a t)
      have hle := lifeSum_filter_step_le t
        fun p hp => h p (List.mem_cons_of_mem a hp)
      simp only [List.map_cons, List.filter_cons, lifeSum_cons]
      by_cases hs : 0 < (stepParticle a).life
      · rw [if_pos (by simpa using hs), lifeSum_cons]
        have hstep : (stepParticle a).life = a.life - a.decay := rfl
        rw [hstep]
        linarith
      · rw [if_neg (by simpa using hs)]
        linarith

/-- C4: construction spawns exactly `particleCount` particles, each
with life exactly 1, velocity components in [−7.5, 7.5), decay rate in
[0.015, 0.025), radius in [2, 6), color from the fixed palette, and
leaves the simulator active.  `hr` states that every `Math.random()`
draw lies in [0, 1). -/
theorem burstInit_spec (prof : PerformanceProfile) (x y : ℚ) (rng : ℕ → ℚ)
    (hr : ∀ i, 0 ≤ rng i ∧ rng i < 1) :
    (burstInit prof x y rng).particles.length = prof.particleCount ∧
    (burstInit prof x y rng).isActive = true ∧
    ∀ p ∈ (burstInit prof x y rng).particles,
      p.life = 1 ∧
      -(15/2) ≤ p.vx ∧ p.vx < 15/2 ∧ -(15/2) ≤ p.vy ∧ p.vy < 15/2 ∧
      3/200 ≤ p.decay ∧ p.decay < 1/40 ∧
      2 ≤ p.size ∧ p.size < 6 ∧
      p.color ∈ burstColors := by
  refine ⟨by simp [burstInit], rfl, ?_⟩
  intro p hp
  simp only [burstInit, List.mem_map, List.mem_range] at hp
  obtain ⟨i, _, rfl⟩ := hp
  obtain ⟨h1a, h1b⟩ := hr (5 * i)
  obtain ⟨h2a, h2b⟩ := hr (5 * i + 1)
  obtain ⟨h3a, h3b⟩ := hr (5 * i + 2)
  obtain ⟨h4a, h4b⟩ := hr (5 * i + 3)
  simp only [mkParticle]
  norm_num
  refine ⟨?_, ?_, ?_, ?_, ?_, ?_, ?_, ?_, getRandomColor_mem _⟩ <;> linarith

/-- C4 witness: the construction theorem instantiated at the low-end
profile, origin (0, 0) and the all-zero random stream. -/
theorem burstInit_spec_witness :
    (burstInit lowProfile 0 0 fun _ => 0).particles.length = 10 ∧
    (burstInit lowProfile 0 0 fun _ => 0).isActive = true := by
  have h := burstInit_spec lowProfile 0 0 (fun _ => 0)
    fun i => by norm_num
  exact ⟨by rw [h.1]; rfl, h.2.1⟩

/-- C5: on an active non-empty batch whose particles have positive
life at most 1 and decay at least 0.015 (the construction invariants),
one `update` strictly decreases total remaining life, the batch stays
active exactly while it is non-empty, and 67 updates (the decay-rate
bound ⌈1 / 0.015⌉) leave it empty and inactive. -/
theorem burst_update_progress (s : BurstState)
    (hA : s.isActive = true) (hne : s.particles ≠ [])
    (hp : ∀ p ∈ s.particles, 0 < p.life ∧ p.life ≤ 1 ∧ 3/200 ≤ p.decay) :
    lifeSum (update s).particles < lifeSum s.particles ∧
    ((update s).isActive = true ↔ (update s).particles ≠ []) ∧
    (update^[67] s).particles = [] ∧ (update^[67] s).isActive = false := by
  have hP : s.isActive = false → s.particles = [] := by
    rw [hA]
    intro hc
    exact absurd hc (by simp)
  have hlives : ∀ p ∈ s.particles, 0 < p.life := fun p h2 => (hp p h2).1
  have h67 : (update^[67] s).particles = [] := by
    by_contra hne2
    obtain ⟨p2, hp2⟩ := List.exists_mem_of_ne_nil _ hne2
    obtain ⟨p, hpmem, hdec, hlife⟩ := update_iter_origin s hP 67 p2 hp2
    have hpos := iter_lives_pos s hlives 67 p2 hp2
    obtain ⟨hg1, hg2, hg3⟩ := hp p hpmem
    rw [hlife] at hpos
    have hmul : (67 : ℚ) * (3/200) ≤ 67 * p.decay := by linarith
    norm_num at hpos hmul
    linarith
  have hiter : update^[67] s = update (update^[66] s) := by
    rw [show (67 : ℕ) = 66 + 1 by norm_num, Function.iterate_succ_apply']
  refine ⟨?_, ?_, h67, ?_⟩
  · rw [update_of_active s hA]
    exact lifeSum_filter_step_lt s.particles hne
      fun p h2 => ⟨(hp p h2).1, by linarith [(hp p h2).2.2]⟩
  · rw [update_of_active s hA]
    simp only
    by_cases he : ((s.particles.map stepParticle).filter fun p =>
        decide (0 < p.life)).isEmpty
    · rw [if_pos he, List.isEmpty_iff.mp he]
      simp
    · rw [if_neg he]
      simp only [true_iff]
      intro hc
      rw [hc] at he
      simp at he
  · rw [hiter] at h67 ⊢
    by_cases hA66 : (update^[66] s).isActive = false
    · rw [update_of_inactive _ hA66]
      exact hA66
    · rw [update_of_active _ (active_of_not_inactive _ hA66)] at h67 ⊢
      simp only at h67 ⊢
      rw [h67]
      simp

/-- C5 witness: the progress theorem instantiated at a concrete
one-particle active batch with life 1 and decay 1. -/
theorem burst_update_progress_witness :
    lifeSum (update sampleBurst).particles < lifeSum sampleBurst.particles ∧
    (update^[67] sampleBurst).particles = [] ∧
    (update^[67] sampleBurst).isActive = false := by
  have h := burst_update_progress sampleBurst rfl (by simp [sampleBurst])
    (by intro p hp2; simp [sampleBurst] at hp2; subst hp2; norm_num)
  exact ⟨h.1, h.2.2.1, h.2.2.2⟩

/-- C10: starting from any constructed burst, after any number of
`update` calls every particle remaining in the batch has life strictly
greater than 0 — a particle whose life reaches 0 is removed in the same
step. -/
theorem burst_lives_positive (prof : PerformanceProfile) (x y : ℚ)
    (rng : ℕ → ℚ) (k : ℕ) :
    ∀ p ∈ (update^[k] (burstInit prof x y rng)).particles, 0 < p.life := by
  apply iter_lives_pos
  intro p hp
  simp only [burstInit, List.mem_map, List.mem_range] at hp
  obtain ⟨i, _, rfl⟩ := hp
  norm_num [mkParticle]

/-- C10 witness: the positivity theorem instantiated at the low-end
profile, the all-zero random stream, zero updates, and the first
particle of the batch. -/
theorem burst_lives_positive_witness :
    0 < (mkParticle 0 0 0 0 0 0 0).life := by
  refine burst_lives_positive lowProfile 0 0 (fun _ => 0) 0
    (mkParticle 0 0 0 0 0 0 0) ?_
  rw [Function.iterate_zero_apply]
  unfold burstInit
  exact List.mem_map.mpr ⟨0, List.mem_range.mpr (by norm_num [lowProfile]), rfl⟩
